import Mathlib

/-! Formal model of the generate-verify-repair loop of LLMath (src/main.py).

The core is embedded shallowly: `execute_steps` is the verification sandbox,
`generate_proof_chain` the retry controller, `solve_endpoint` and
`update_endpoint` the two logical operations.  The two external collaborators
are passed as parameters: the chat completion service is a function
`chat : Nat → List Msg → GenOutcome` (attempt number and conversation history
to outcome), and the code-execution engine is an `ExecModel` (an initial
session, the namespace seeded with the symbolic engine, plus a `run` function
giving for each fragment the effect on the session and the captured stdout, or the
description of the raised error).  `miniModel` below is one concrete execution
collaborator implementing name-binding semantics, used to instantiate the
theorems. -/

namespace LLMath

/-- A role-tagged chat message (the message dicts of the source). -/
structure Msg where
  role : String
  content : String
deriving DecidableEq

/-- The `ProofStep` data model of src/main.py (pydantic `BaseModel`). -/
structure ProofStep where
  index : Int
  content : String
  code : String
  output : String
  status : String
deriving DecidableEq

/-- One step descriptor of a parsed plan: a JSON object in which each of the
keys `content`, `code`, `status` may be absent. -/
structure StepDict where
  content : Option String
  code : Option String
  status : Option String
deriving DecidableEq

/-- Result of executing one code fragment against a session: either the new
session together with the captured stdout, or the description of the raised
exception. -/
inductive ExecRes (σ : Type) where
  | ok (sess : σ) (stdout : String)
  | raise (msg : String)
deriving DecidableEq

/-- The execution collaborator: the fresh-session seed (`session_globals`
pre-bound with the sympy namespace, src/main.py line 71) and the effect of
`exec` on a session. -/
structure ExecModel (σ : Type) where
  init : σ
  run : String → σ → ExecRes σ

/-- Outcome of one call to `execute_steps`: `success verified`,
`failed verified msg` (the `(False, verified_steps, str(e))` return), or
`raised` (an exception escaped `execute_steps` itself, as the `KeyError`
from `step[\x27code\x27]` on line 75 does, that access being outside the
`try`). -/
inductive BatchResult where
  | success (verified : List ProofStep)
  | failed (verified : List ProofStep) (msg : String)
  | raised
deriving DecidableEq

/-- The whitespace set of Python str.strip. -/
def pyIsSpace (c : Char) : Bool :=
  c = ' ' || c = '\t' || c = '\n' || c = '\r' || c = '\x0B' || c = '\x0C'

/-- Python str.strip: drop leading and trailing whitespace. -/
def pyStrip (s : String) : String :=
  String.mk (((s.data.dropWhile pyIsSpace).reverse.dropWhile pyIsSpace).reverse)

/-- Output normalization of src/main.py lines 80-81: strip surrounding
whitespace; substitute the sentinel when empty. -/
def normOutput (o : String) : String :=
  if pyStrip o = "" then "\\text\x7bNo Output\x7d" else pyStrip o

/-- The loop body of `execute_steps` (src/main.py lines 74-94), with the
shared session passed explicitly.  A missing `code` key raises outside the
`try` (`raised`); a raising fragment returns the failure with the steps
verified so far; a missing `content` key raises inside the `try` while the
verified-step dict is built (line 85), so it is caught on line 91 and
reported as the failure message `str(KeyError(\x27content\x27))`. -/
def execGo {σ : Type} (E : ExecModel σ) : List StepDict → σ → BatchResult
  | [], _ => .success []
  | d :: rest, sess =>
    match d.code with
    | none => .raised
    | some c =>
      match E.run c sess with
      | .raise m => .failed [] m
      | .ok sess2 out =>
        match d.content with
        | none => .failed [] "\x27content\x27"
        | some ct =>
          match execGo E rest sess2 with
          | .success vs =>
              .success (⟨0, ct, c, normOutput out, d.status.getD "normal"⟩ :: vs)
          | .failed vs m =>
              .failed (⟨0, ct, c, normOutput out, d.status.getD "normal"⟩ :: vs) m
          | .raised => .raised

/-- `execute_steps` of src/main.py: run the batch against a session created
fresh for this batch from the seed of the collaborator. -/
def execute_steps {σ : Type} (E : ExecModel σ) (steps_data : List StepDict) : BatchResult :=
  execGo E steps_data E.init

/-- Session evolution of a list of fragments (observer used to state which
session the failing fragment of a batch saw): `some` of the session after all
fragments ran without raising, `none` otherwise. -/
def runSessGo {σ : Type} (E : ExecModel σ) : List StepDict → σ → Option σ
  | [], sess => some sess
  | d :: rest, sess =>
    match d.code with
    | none => none
    | some c =>
      match E.run c sess with
      | .raise _ => none
      | .ok sess2 _ => runSessGo E rest sess2

/-- Prepend already-verified steps to the verified list of each constructor. -/
def prependResult (vs : List ProofStep) : BatchResult → BatchResult
  | .success l => .success (vs ++ l)
  | .failed l m => .failed (vs ++ l) m
  | .raised => .raised

/-- Outcome of the request-plus-parse phase of one attempt: `exc` when the service
call or `json.loads` raised (both land in the same `except Exception` of
src/main.py line 123), or the raw assistant text together with the decoded
`steps` field of the decoded plan (`none` when the field is absent). -/
inductive GenOutcome where
  | exc
  | parsed (raw : String) (steps : Option (List StepDict))
deriving DecidableEq

/-- The terminal step synthesized on exhausting all attempts
(src/main.py lines 126-132). -/
def errorStep (si : Int) : ProofStep :=
  ⟨si, "**生成失败**: 无法构建有效的证明路径。", "# Error", "\\text\x7bError\x7d", "error"⟩

/-- Reindexing of a successful batch (src/main.py lines 115-116):
`s[\x27index\x27] = start_index + i`. -/
def reindexFrom (si : Int) : List ProofStep → List ProofStep
  | [] => []
  | s :: rest => ⟨si, s.content, s.code, s.output, s.status⟩ :: reindexFrom (si + 1) rest

/-- Decidable observer: did this attempt outcome produce a plan whose batch
fully verified? -/
def isSuccessB : BatchResult → Bool
  | .success _ => true
  | _ => false

/-- Decidable observer on the outcome of one attempt: `true` exactly when the
attempt would make `generate_proof_chain` return. -/
def attemptSucceedsB {σ : Type} (E : ExecModel σ) : GenOutcome → Bool
  | .exc => false
  | .parsed _ none => false
  | .parsed _ (some steps) => isSuccessB (execute_steps E steps)

/-- The retry loop of `generate_proof_chain` (src/main.py lines 99-132),
instrumented: besides the returned chain it records the history passed to
each generation request, so the number of attempts and the history growth are
observable.  `fuel` counts the remaining iterations of
`for attempt in range(max_retries)`, `attempt` the loop counter. -/
def genGo {σ : Type} (E : ExecModel σ) (chat : Nat → List Msg → GenOutcome) (si : Int) :
    Nat → Nat → List Msg → List ProofStep × List (List Msg)
  | 0, _, _ => ([errorStep si], [])
  | fuel + 1, attempt, history =>
    match chat attempt history with
    | .exc =>
        let r := genGo E chat si fuel (attempt + 1) history
        (r.1, history :: r.2)
    | .parsed raw steps? =>
      match steps? with
      | none =>
          let r := genGo E chat si fuel (attempt + 1) history
          (r.1, history :: r.2)
      | some steps =>
        match execute_steps E steps with
        | .raised =>
            let r := genGo E chat si fuel (attempt + 1) history
            (r.1, history :: r.2)
        | .failed _ msg =>
            let r := genGo E chat si fuel (attempt + 1)
              (history ++ [⟨"assistant", raw⟩, ⟨"system", "Code Error: " ++ msg⟩])
            (r.1, history :: r.2)
        | .success vs => (reindexFrom si vs, [history])

/-- `generate_proof_chain` of src/main.py (default `start_index = 1`,
`max_retries = 3`). -/
def generate_proof_chain {σ : Type} (E : ExecModel σ) (chat : Nat → List Msg → GenOutcome)
    (messages : List Msg) (start_index : Int := 1) (max_retries : Nat := 3) : List ProofStep :=
  (genGo E chat start_index max_retries 0 messages).1

/-- The histories passed to the successive generation requests of one call to
`generate_proof_chain`; its length is the number of attempts made. -/
def genHistories {σ : Type} (E : ExecModel σ) (chat : Nat → List Msg → GenOutcome)
    (messages : List Msg) (start_index : Int := 1) (max_retries : Nat := 3) : List (List Msg) :=
  (genGo E chat start_index max_retries 0 messages).2

/-- The history the next attempt sees, given the outcome of the current attempt:
unchanged on a silent failure, extended by the assistant turn and the
diagnostic turn on an execution failure, `none` when the attempt succeeds
(the loop returns). -/
def contNext {σ : Type} (E : ExecModel σ) (o : GenOutcome) (h : List Msg) : Option (List Msg) :=
  match o with
  | .exc => some h
  | .parsed raw steps? =>
    match steps? with
    | none => some h
    | some steps =>
      match execute_steps E steps with
      | .raised => some h
      | .failed _ msg => some (h ++ [⟨"assistant", raw⟩, ⟨"system", "Code Error: " ++ msg⟩])
      | .success _ => none

/-- The natural-language system prompt.  Its text is out of the scope of the
design (spec section 1 treats the specific prompt text as external); no claim
depends on it, so it is represented by a placeholder constant. -/
def SYSTEM_PROMPT : String := "<system prompt text, out of scope>"

/-- The `UpdateRequest` model of src/main.py. -/
structure UpdateRequest where
  current_steps : List ProofStep
  edit_index : Int
  new_content : String
  problem : String

/-- Python list slicing `l[:j]` including its negative-index semantics:
a negative bound counts from the end, clamped at zero. -/
def pysliceTo {α : Type} (l : List α) (j : Int) : List α :=
  if j < 0 then l.take ((l.length : Int) + j).toNat else l.take j.toNat

/-- The user turn of the specialized edit conversation (src/main.py lines
149-178): restates the goal, lists the code of the confirmed prefix, states
the replacement content of the user and the acceptance/rejection instructions. -/
def UPDATE_PROMPT (req : UpdateRequest) : String :=
  let previous_steps := pysliceTo req.current_steps (req.edit_index - 1)
  let prev_code_summary := String.intercalate "\n" (previous_steps.map (fun s => s.code))
  "\n    你是一个严谨的数学引擎。\n    \n    【终极目标】\n    我们必须解决原始问题：**\""
    ++ req.problem
    ++ "\"**\n    请时刻牢记这个目标，不要偏题。\n    \n    【当前进度】\n    前 "
    ++ toString (req.edit_index - 1)
    ++ " 步已确立（代码已执行）：\n    "
    ++ prev_code_summary
    ++ "\n    \n    【用户修改】\n    用户将第 "
    ++ toString req.edit_index
    ++ " 步修改为：\n    \""
    ++ req.new_content
    ++ "\"\n    \n    【任务】\n    1. **一致性检查**：用户的修改是否符合数学逻辑？是否能承接上文？\n    2. **目标导向检查**：用户的修改是否依然有助于解决【终极目标】？\n       - 如果用户把“求积分”改成了“求导”，这属于偏离目标，应判为 error。\n    3. **输出内容约束**：输出内容应该是直接面向用户的，要客观陈述正确与否。\n    \n    【情况 A：修改有效且指向目标】\n    - 重写该步骤内容（status=\"valid\"）。\n    - **继续生成后续步骤**，直到彻底解决【终极目标】。\n    \n    【情况 B：修改无效或偏离目标】\n    - 只输出这一步。\n    - status=\"error\"。\n    - content 说明原因。\n    "

/-- `solve_endpoint` of src/main.py: fresh derivation, default
`start_index = 1` and `max_retries = 3`. -/
def solve_endpoint {σ : Type} (E : ExecModel σ) (chat : Nat → List Msg → GenOutcome)
    (problem : String) : List ProofStep :=
  generate_proof_chain E chat
    [⟨"system", SYSTEM_PROMPT⟩, ⟨"user", "请完整解决这个问题：" ++ problem⟩]

/-- `update_endpoint` of src/main.py: preserved prefix
`current_steps[:edit_index-1]`, then the generated suffix with
`start_index = len(previous_steps) + 1`. -/
def update_endpoint {σ : Type} (E : ExecModel σ) (chat : Nat → List Msg → GenOutcome)
    (req : UpdateRequest) : List ProofStep :=
  let previous_steps := pysliceTo req.current_steps (req.edit_index - 1)
  previous_steps ++
    generate_proof_chain E chat [⟨"system", SYSTEM_PROMPT⟩, ⟨"user", UPDATE_PROMPT req⟩]
      ((previous_steps.length : Int) + 1) 3

/-- A concrete execution collaborator implementing the name-binding semantics
the spec relies on: the session is the list of bound names, a fragment
`let:x` binds `x` printing nothing, a fragment `use:x` succeeds printing
`ok` when `x` is bound and raises a NameError-style message otherwise, and
any other fragment raises a SyntaxError-style message. -/
def miniRunAux : List Char → List String → ExecRes (List String)
  | 'l' :: 'e' :: 't' :: ':' :: rest, sess => .ok (String.mk rest :: sess) ""
  | 'u' :: 's' :: 'e' :: ':' :: rest, sess =>
    let x := String.mk rest
    if x ∈ sess then .ok sess "ok" else .raise ("name " ++ x ++ " is not defined")
  | _, _ => .raise "SyntaxError: invalid syntax"

/-- String front-end of `miniRunAux`. -/
def miniRun (code : String) (sess : List String) : ExecRes (List String) :=
  miniRunAux code.data sess

/-- The concrete execution collaborator: seed session holds the two names
bound by `session_globals` of src/main.py line 71. -/
def miniModel : ExecModel (List String) :=
  ⟨["sympy", "sp"], miniRun⟩

/-- A plan step binding the name `n`. -/
def bindStep (n : String) : StepDict :=
  ⟨some "bind", some ("let:" ++ n), none⟩

/-- A plan step referencing the name `x`. -/
def useStep (x : String) : StepDict :=
  ⟨some "use", some ("use:" ++ x), none⟩

/-- The verified step produced by executing `bindStep n` (its stdout is
empty, so its output is the sentinel). -/
def bindVStep (n : String) : ProofStep :=
  ⟨0, "bind", "let:" ++ n, "\\text\x7bNo Output\x7d", "normal"⟩

/-- The verified step produced by executing `useStep x` when `x` is bound. -/
def useVStep (x : String) : ProofStep :=
  ⟨0, "use", "use:" ++ x, "ok", "normal"⟩

/-- `List.get?` inside the left part of an append. -/
theorem lget_append_lt {α : Type} :
    ∀ (l₁ l₂ : List α) (i : Nat), i < l₁.length → (l₁ ++ l₂).get? i = l₁.get? i := by
  intro l₁
  induction l₁ with
  | nil => intro l₂ i h; exact absurd h (by simp)
  | cons a l ih =>
    intro l₂ i h
    cases i with
    | zero => rfl
    | succ j => exact ih l₂ j (by simpa using h)

/-- `List.get?` inside a `take`. -/
theorem lget_take_lt {α : Type} :
    ∀ (l : List α) (n i : Nat), i < n → (l.take n).get? i = l.get? i := by
  intro l
  induction l with
  | nil => intro n i _; simp
  | cons a l ih =>
    intro n i h
    cases n with
    | zero => exact absurd h (by simp)
    | succ n =>
      cases i with
      | zero => rfl
      | succ j => exact ih n j (by omega)

/-- A hit of `List.get?` bounds the position. -/
theorem lget_some_lt {α : Type} :
    ∀ (l : List α) (i : Nat) (a : α), l.get? i = some a → i < l.length := by
  intro l
  induction l with
  | nil => intro i a h; simp at h
  | cons b l ih =>
    intro i a h
    cases i with
    | zero => simp
    | succ j =>
      have := ih j a h
      simp only [List.length_cons]
      omega

/-- Dropping the left part of an append. -/
theorem ldrop_append_self {α : Type} :
    ∀ (l₁ l₂ : List α), (l₁ ++ l₂).drop l₁.length = l₂ := by
  intro l₁
  induction l₁ with
  | nil => intro l₂; rfl
  | cons a l ih => intro l₂; exact ih l₂

/-- The normalized output is never empty. -/
theorem normOutput_ne_empty (o : String) : normOutput o ≠ "" := by
  unfold normOutput
  split
  · decide
  · assumption

/-- A batch that fails does so independently of any steps after the failing
one: appending further steps changes nothing. -/
theorem execGo_append_failed {σ : Type} (E : ExecModel σ) :
    ∀ (l : List StepDict) (sess : σ) (vs : List ProofStep) (m : String) (rest : List StepDict),
      execGo E l sess = .failed vs m → execGo E (l ++ rest) sess = .failed vs m := by
  intro l
  induction l with
  | nil =>
    intro sess vs m rest h
    simp [execGo] at h
  | cons d l ih =>
    intro sess vs m rest h
    cases hc : d.code with
    | none => simp [execGo, hc] at h
    | some c =>
      cases hr : E.run c sess with
      | raise m2 =>
        simp [execGo, hc, hr] at h ⊢
        exact h
      | ok sess2 out =>
        cases hct : d.content with
        | none =>
          simp [execGo, hc, hr, hct] at h ⊢
          exact h
        | some ct =>
          cases hrec : execGo E l sess2 with
          | success vs2 => simp [execGo, hc, hr, hct, hrec] at h
          | raised => simp [execGo, hc, hr, hct, hrec] at h
          | failed vs2 m2 =>
            have h2 := ih sess2 vs2 m2 rest hrec
            simp [execGo, hc, hr, hct, hrec, h2] at h ⊢
            exact h

/-- Every step of a fully verified batch carries the normalization of the
stdout its fragment actually produced; in particular it is non-empty. -/
theorem execGo_success_outputs {σ : Type} (E : ExecModel σ) :
    ∀ (l : List StepDict) (sess : σ) (vs : List ProofStep),
      execGo E l sess = .success vs →
      ∀ (i : Nat) (s : ProofStep), vs.get? i = some s →
        s.output ≠ "" ∧
          ∃ raw se se2, E.run s.code se = .ok se2 raw ∧ s.output = normOutput raw := by
  intro l
  induction l with
  | nil =>
    intro sess vs h i s hi
    simp [execGo] at h
    subst h
    simp at hi
  | cons d l ih =>
    intro sess vs h i s hi
    cases hc : d.code with
    | none => simp [execGo, hc] at h
    | some c =>
      cases hr : E.run c sess with
      | raise m2 => simp [execGo, hc, hr] at h
      | ok sess2 out =>
        cases hct : d.content with
        | none => simp [execGo, hc, hr, hct] at h
        | some ct =>
          cases hrec : execGo E l sess2 with
          | failed vs2 m2 => simp [execGo, hc, hr, hct, hrec] at h
          | raised => simp [execGo, hc, hr, hct, hrec] at h
          | success vs2 =>
            have e : execGo E (d :: l) sess =
                .success (⟨0, ct, c, normOutput out, d.status.getD "normal"⟩ :: vs2) := by
              simp [execGo, hc, hr, hct, hrec]
            rw [e] at h
            injection h with h1
            subst h1
            cases i with
            | zero =>
              injection hi with hv
              subst hv
              exact ⟨normOutput_ne_empty out, out, sess, sess2, hr, rfl⟩
            | succ j =>
              exact ih sess2 vs2 hrec j s hi

/-- Anatomy of a failed batch: the verified steps are exactly the images of
the first `vs.length` descriptors of the plan in order, and the failure message
is the error raised by the fragment of the very next descriptor in the session the
verified steps produced (or the KeyError text when that descriptor lacks
`content` while its fragment ran fine). -/
theorem execGo_failed_spec {σ : Type} (E : ExecModel σ) :
    ∀ (l : List StepDict) (sess : σ) (vs : List ProofStep) (m : String),
      execGo E l sess = .failed vs m →
      ((l.take vs.length).map StepDict.code = vs.map (fun v => some v.code) ∧
        (l.take vs.length).map StepDict.content = vs.map (fun v => some v.content)) ∧
      ∃ d, l.get? vs.length = some d ∧ ∃ c, d.code = some c ∧
        ∃ se, runSessGo E (l.take vs.length) sess = some se ∧
          (E.run c se = .raise m ∨
            ((∃ se2 o, E.run c se = .ok se2 o) ∧ d.content = none ∧ m = "\x27content\x27")) := by
  intro l
  induction l with
  | nil =>
    intro sess vs m h
    simp [execGo] at h
  | cons d l ih =>
    intro sess vs m h
    cases hc : d.code with
    | none => simp [execGo, hc] at h
    | some c =>
      cases hr : E.run c sess with
      | raise m2 =>
        have e : execGo E (d :: l) sess = .failed [] m2 := by
          simp [execGo, hc, hr]
        rw [e] at h
        injection h with h1 h2
        subst h1
        subst h2
        exact ⟨⟨rfl, rfl⟩, d, rfl, c, hc, sess, rfl, Or.inl hr⟩
      | ok sess2 out =>
        cases hct : d.content with
        | none =>
          have e : execGo E (d :: l) sess = .failed [] "\x27content\x27" := by
            simp [execGo, hc, hr, hct]
          rw [e] at h
          injection h with h1 h2
          subst h1
          subst h2
          exact ⟨⟨rfl, rfl⟩, d, rfl, c, hc, sess, rfl,
            Or.inr ⟨⟨sess2, out, hr⟩, hct, rfl⟩⟩
        | some ct =>
          cases hrec : execGo E l sess2 with
          | success vs2 => simp [execGo, hc, hr, hct, hrec] at h
          | raised => simp [execGo, hc, hr, hct, hrec] at h
          | failed vs2 m2 =>
            have e : execGo E (d :: l) sess =
                .failed (⟨0, ct, c, normOutput out, d.status.getD "normal"⟩ :: vs2) m2 := by
              simp [execGo, hc, hr, hct, hrec]
            rw [e] at h
            injection h with h1 h2
            subst h1
            subst h2
            obtain ⟨⟨hcode, hcontent⟩, d2, hd2, c2, hc2, se, hse, hdisj⟩ :=
              ih sess2 vs2 m2 hrec
            refine ⟨⟨?_, ?_⟩, d2, ?_, c2, hc2, se, ?_, hdisj⟩
            · simpa [hc] using hcode
            · simpa [hct] using hcontent
            · simpa using hd2
            · simpa [runSessGo, hc, hr] using hse

/-- The loop makes at most `fuel` generation requests. -/
theorem genGo_trace_len {σ : Type} (E : ExecModel σ) (chat : Nat → List Msg → GenOutcome)
    (si : Int) :
    ∀ (fuel attempt : Nat) (history : List Msg),
      (genGo E chat si fuel attempt history).2.length ≤ fuel := by
  intro fuel
  induction fuel with
  | zero => intro attempt history; simp [genGo]
  | succ f ih =>
    intro attempt history
    cases hc : chat attempt history with
    | exc => simpa [genGo, hc] using ih (attempt + 1) history
    | parsed raw steps? =>
      cases steps? with
      | none => simpa [genGo, hc] using ih (attempt + 1) history
      | some steps =>
        cases hr : execute_steps E steps with
        | raised => simpa [genGo, hc, hr] using ih (attempt + 1) history
        | failed vs m =>
          simpa [genGo, hc, hr] using
            ih (attempt + 1)
              (history ++ [⟨"assistant", raw⟩, ⟨"system", "Code Error: " ++ m⟩])
        | success vs => simp [genGo, hc, hr]

/-- If the loop runs at all, its first generation request is issued with the
initial conversation. -/
theorem genGo_trace_head {σ : Type} (E : ExecModel σ) (chat : Nat → List Msg → GenOutcome)
    (si : Int) (fuel attempt : Nat) (history : List Msg) (hf : 0 < fuel) :
    (genGo E chat si fuel attempt history).2.get? 0 = some history := by
  cases fuel with
  | zero => exact absurd hf (by omega)
  | succ f =>
    cases hc : chat attempt history with
    | exc => simp [genGo, hc]
    | parsed raw steps? =>
      cases steps? with
      | none => simp [genGo, hc]
      | some steps =>
        cases hr : execute_steps E steps with
        | raised => simp [genGo, hc, hr]
        | failed vs m => simp [genGo, hc, hr]
        | success vs => simp [genGo, hc, hr]

/-- Adjacent entries of the request trace: the history of request `n + 1` is
obtained from the history of request `n` by `contNext` (unchanged on a silent
failure, extended by the assistant turn and the diagnostic turn on an
execution failure). -/
theorem genGo_trace_adj {σ : Type} (E : ExecModel σ) (chat : Nat → List Msg → GenOutcome)
    (si : Int) :
    ∀ (fuel attempt : Nat) (history : List Msg) (n : Nat) (hn h2 : List Msg),
      (genGo E chat si fuel attempt history).2.get? n = some hn →
      contNext E (chat (attempt + n) hn) hn = some h2 →
      n + 1 < fuel →
      (genGo E chat si fuel attempt history).2.get? (n + 1) = some h2 := by
  intro fuel
  induction fuel with
  | zero =>
    intro attempt history n hn h2 h1 _ hlt
    exact absurd hlt (by omega)
  | succ f ih =>
    intro attempt history n hn h2 h1 hcont hlt
    cases hc : chat attempt history with
    | exc =>
      rw [show genGo E chat si (f + 1) attempt history =
            ((genGo E chat si f (attempt + 1) history).1,
              history :: (genGo E chat si f (attempt + 1) history).2) by
          simp [genGo, hc]] at h1 ⊢
      cases n with
      | zero =>
        injection h1 with h1
        subst h1
        have hcn : contNext E (chat attempt history) history = some h2 := by
          simpa using hcont
        rw [hc] at hcn
        simp only [contNext] at hcn
        injection hcn with hcn
        subst hcn
        exact genGo_trace_head E chat si f (attempt + 1) history (by omega)
      | succ k =>
        have := ih (attempt + 1) history k hn h2 h1
          (by rw [show attempt + 1 + k = attempt + (k + 1) by omega]; exact hcont)
          (by omega)
        simpa using this
    | parsed raw steps? =>
      cases steps? with
      | none =>
        rw [show genGo E chat si (f + 1) attempt history =
              ((genGo E chat si f (attempt + 1) history).1,
                history :: (genGo E chat si f (attempt + 1) history).2) by
            simp [genGo, hc]] at h1 ⊢
        cases n with
        | zero =>
          injection h1 with h1
          subst h1
          have hcn : contNext E (chat attempt history) history = some h2 := by
            simpa using hcont
          rw [hc] at hcn
          simp only [contNext] at hcn
          injection hcn with hcn
          subst hcn
          exact genGo_trace_head E chat si f (attempt + 1) history (by omega)
        | succ k =>
          have := ih (attempt + 1) history k hn h2 h1
            (by rw [show attempt + 1 + k = attempt + (k + 1) by omega]; exact hcont)
            (by omega)
          simpa using this
      | some steps =>
        cases hr : execute_steps E steps with
        | raised =>
          rw [show genGo E chat si (f + 1) attempt history =
                ((genGo E chat si f (attempt + 1) history).1,
                  history :: (genGo E chat si f (attempt + 1) history).2) by
              simp [genGo, hc, hr]] at h1 ⊢
          cases n with
          | zero =>
            injection h1 with h1
            subst h1
            have hcn : contNext E (chat attempt history) history = some h2 := by
              simpa using hcont
            rw [hc] at hcn
            simp only [contNext, hr] at hcn
            injection hcn with hcn
            subst hcn
            exact genGo_trace_head E chat si f (attempt + 1) history (by omega)
          | succ k =>
            have := ih (attempt + 1) history k hn h2 h1
              (by rw [show attempt + 1 + k = attempt + (k + 1) by omega]; exact hcont)
              (by omega)
            simpa using this
        | failed vs m =>
          rw [show genGo E chat si (f + 1) attempt history =
                ((genGo E chat si f (attempt + 1)
                    (history ++ [⟨"assistant", raw⟩, ⟨"system", "Code Error: " ++ m⟩])).1,
                  history :: (genGo E chat si f (attempt + 1)
                    (history ++ [⟨"assistant", raw⟩,
                      ⟨"system", "Code Error: " ++ m⟩])).2) by
              simp [genGo, hc, hr]] at h1 ⊢
          cases n with
          | zero =>
            injection h1 with h1
            subst h1
            have hcn : contNext E (chat attempt history) history = some h2 := by
              simpa using hcont
            rw [hc] at hcn
            simp only [contNext, hr] at hcn
            injection hcn with hcn
            subst hcn
            exact genGo_trace_head E chat si f (attempt + 1) _ (by omega)
          | succ k =>
            have := ih (attempt + 1)
              (history ++ [⟨"assistant", raw⟩, ⟨"system", "Code Error: " ++ m⟩])
              k hn h2 h1
              (by rw [show attempt + 1 + k = attempt + (k + 1) by omega]; exact hcont)
              (by omega)
            simpa using this
        | success vs =>
          rw [show genGo E chat si (f + 1) attempt history =
                (reindexFrom si vs, [history]) by simp [genGo, hc, hr]] at h1 ⊢
          cases n with
          | zero =>
            injection h1 with h1
            subst h1
            have hcn : contNext E (chat attempt history) history = some h2 := by
              simpa using hcont
            rw [hc] at hcn
            simp [contNext, hr] at hcn
          | succ k => simp at h1

/-- The return value of the loop is either the terminal error step alone or the
reindexing of some fully verified batch. -/
theorem genGo_result_cases {σ : Type} (E : ExecModel σ) (chat : Nat → List Msg → GenOutcome)
    (si : Int) :
    ∀ (fuel attempt : Nat) (history : List Msg),
      (genGo E chat si fuel attempt history).1 = [errorStep si] ∨
        ∃ steps vs, execute_steps E steps = .success vs ∧
          (genGo E chat si fuel attempt history).1 = reindexFrom si vs := by
  intro fuel
  induction fuel with
  | zero => intro attempt history; exact Or.inl rfl
  | succ f ih =>
    intro attempt history
    cases hc : chat attempt history with
    | exc => simpa [genGo, hc] using ih (attempt + 1) history
    | parsed raw steps? =>
      cases steps? with
      | none => simpa [genGo, hc] using ih (attempt + 1) history
      | some steps =>
        cases hr : execute_steps E steps with
        | raised => simpa [genGo, hc, hr] using ih (attempt + 1) history
        | failed vs m =>
          simpa [genGo, hc, hr] using
            ih (attempt + 1)
              (history ++ [⟨"assistant", raw⟩, ⟨"system", "Code Error: " ++ m⟩])
        | success vs =>
          refine Or.inr ⟨steps, vs, hr, ?_⟩
          simp [genGo, hc, hr]

/-- If no attempt can succeed, the loop returns the terminal error step. -/
theorem genGo_all_fail {σ : Type} (E : ExecModel σ) (chat : Nat → List Msg → GenOutcome)
    (si : Int) (hfail : ∀ (n : Nat) (h : List Msg), attemptSucceedsB E (chat n h) = false) :
    ∀ (fuel attempt : Nat) (history : List Msg),
      (genGo E chat si fuel attempt history).1 = [errorStep si] := by
  intro fuel
  induction fuel with
  | zero => intro attempt history; rfl
  | succ f ih =>
    intro attempt history
    cases hc : chat attempt history with
    | exc => simpa [genGo, hc] using ih (attempt + 1) history
    | parsed raw steps? =>
      cases steps? with
      | none => simpa [genGo, hc] using ih (attempt + 1) history
      | some steps =>
        cases hr : execute_steps E steps with
        | raised => simpa [genGo, hc, hr] using ih (attempt + 1) history
        | failed vs m =>
          simpa [genGo, hc, hr] using
            ih (attempt + 1)
              (history ++ [⟨"assistant", raw⟩, ⟨"system", "Code Error: " ++ m⟩])
        | success vs =>
          have := hfail attempt history
          rw [hc] at this
          simp [attemptSucceedsB, hr, isSuccessB] at this

/-- Reindexing assigns `start_index + position` and keeps every other
field. -/
theorem reindexFrom_get {si : Int} :
    ∀ (vs : List ProofStep) (i : Nat) (s : ProofStep),
      (reindexFrom si vs).get? i = some s →
      ∃ s0, vs.get? i = some s0 ∧
        s = ⟨si + i, s0.content, s0.code, s0.output, s0.status⟩ := by
  intro vs
  induction vs generalizing si with
  | nil => intro i s h; simp [reindexFrom] at h
  | cons v vs ih =>
    intro i s h
    cases i with
    | zero =>
      injection h with h
      subst h
      exact ⟨v, rfl, by simp⟩
    | succ j =>
      obtain ⟨s0, hs0, hs⟩ := ih j s h
      refine ⟨s0, hs0, ?_⟩
      rw [hs]
      have : si + 1 + (j : Int) = si + ((j : Int) + 1) := by omega
      simp [this]

/-- The chain returned by the retry loop has contiguous indices from the
requested start index. -/
theorem generate_get_index {σ : Type} (E : ExecModel σ) (chat : Nat → List Msg → GenOutcome)
    (msgs : List Msg) (si : Int) (mr : Nat) (i : Nat) (s : ProofStep)
    (h : (generate_proof_chain E chat msgs si mr).get? i = some s) :
    s.index = si + i := by
  rcases genGo_result_cases E chat si mr 0 msgs with hcase | ⟨steps, vs, hsucc, hcase⟩
  · unfold generate_proof_chain at h
    rw [hcase] at h
    cases i with
    | zero =>
      injection h with h
      subst h
      simp [errorStep]
    | succ j => simp at h
  · unfold generate_proof_chain at h
    rw [hcase] at h
    obtain ⟨s0, _, hs⟩ := reindexFrom_get _ i s h
    rw [hs]

/-- Every step of the returned chain has non-empty output (the success case
comes from `execGo_success_outputs`; the output of the terminal error step is the
error sentinel). -/
theorem generate_output_ne_empty {σ : Type} (E : ExecModel σ)
    (chat : Nat → List Msg → GenOutcome) (msgs : List Msg) (si : Int) (mr : Nat)
    (i : Nat) (s : ProofStep)
    (h : (generate_proof_chain E chat msgs si mr).get? i = some s) :
    s.output ≠ "" := by
  rcases genGo_result_cases E chat si mr 0 msgs with hcase | ⟨steps, vs, hsucc, hcase⟩
  · unfold generate_proof_chain at h
    rw [hcase] at h
    cases i with
    | zero =>
      injection h with h
      subst h
      simp [errorStep]
    | succ j => simp at h
  · unfold generate_proof_chain at h
    rw [hcase] at h
    obtain ⟨s0, hs0, hs⟩ := reindexFrom_get _ i s h
    have := (execGo_success_outputs E steps E.init vs hsucc i s0 hs0).1
    rw [hs]
    simpa using this

/-- Character data of an appended string. -/
theorem str_data_append (a b : String) : (a ++ b).data = a.data ++ b.data := by
  obtain ⟨la⟩ := a
  obtain ⟨lb⟩ := b
  rfl

/-- Rebuilding a string from its character data. -/
theorem str_mk_data (s : String) : String.mk s.data = s := by
  obtain ⟨l⟩ := s
  rfl

/-- A `let:` fragment binds the name and prints nothing. -/
theorem miniRun_let (n : String) (sess : List String) :
    miniRun ("let:" ++ n) sess = .ok (n :: sess) "" := by
  unfold miniRun
  rw [str_data_append]
  show miniRunAux ('l' :: 'e' :: 't' :: ':' :: n.data) sess = .ok (n :: sess) ""
  simp [miniRunAux, str_mk_data]

/-- A `use:` fragment prints `ok` when the name is bound in the session and
raises a NameError-style message otherwise. -/
theorem miniRun_use (x : String) (sess : List String) :
    miniRun ("use:" ++ x) sess =
      if x ∈ sess then .ok sess "ok"
      else .raise ("name " ++ x ++ " is not defined") := by
  unfold miniRun
  rw [str_data_append]
  show miniRunAux ('u' :: 's' :: 'e' :: ':' :: x.data) sess = _
  simp [miniRunAux, str_mk_data]

/-- Normalizing an empty stdout yields the sentinel. -/
theorem normOutput_empty : normOutput "" = "\\text\x7bNo Output\x7d" := by
  decide

/-- Prepending nothing. -/
theorem prependResult_nil (r : BatchResult) : prependResult [] r = r := by
  cases r <;> rfl

/-- Prepending twice. -/
theorem prependResult_append (vs ws : List ProofStep) (r : BatchResult) :
    prependResult vs (prependResult ws r) = prependResult (vs ++ ws) r := by
  cases r <;> simp [prependResult]

/-- Executing a run of binding fragments always succeeds, binds the names in
reverse order on top of the incoming session, and verifies one sentinel-output
step per name; whatever follows runs in that extended session. -/
theorem execGo_bind_prefix :
    ∀ (names : List String) (sess : List String) (rest : List StepDict),
      execGo miniModel (names.map bindStep ++ rest) sess =
        prependResult (names.map bindVStep)
          (execGo miniModel rest (names.reverse ++ sess)) := by
  intro names
  induction names with
  | nil =>
    intro sess rest
    simp [prependResult_nil]
  | cons n ns ih =>
    intro sess rest
    have hrun : miniModel.run ("let:" ++ n) sess = .ok (n :: sess) "" := miniRun_let n sess
    have e1 : execGo miniModel ((n :: ns).map bindStep ++ rest) sess =
        prependResult [bindVStep n]
          (execGo miniModel (ns.map bindStep ++ rest) (n :: sess)) := by
      show execGo miniModel (bindStep n :: (ns.map bindStep ++ rest)) sess = _
      cases hrec : execGo miniModel (ns.map bindStep ++ rest) (n :: sess) with
      | success vs =>
        simp [execGo, bindStep, hrun, hrec, prependResult, bindVStep, normOutput_empty]
      | failed vs m =>
        simp [execGo, bindStep, hrun, hrec, prependResult, bindVStep, normOutput_empty]
      | raised =>
        simp [execGo, bindStep, hrun, hrec, prependResult]
    rw [e1, ih (n :: sess) rest, prependResult_append]
    have hsess : ns.reverse ++ (n :: sess) = (n :: ns).reverse ++ sess := by
      simp
    rw [hsess]
    rfl

/-- A fixed user message for concrete instantiations. -/
def wMsg : Msg := ⟨"user", "p"⟩

/-- A generator whose plans are structurally valid but whose code always
raises under `miniModel`. -/
def chatAllFail : Nat → List Msg → GenOutcome :=
  fun _ _ => .parsed "r" (some [⟨some "c", some "boom", none⟩])

/-- A generator returning one structurally valid two-step plan that fully
verifies under `miniModel`. -/
def chatOK : Nat → List Msg → GenOutcome :=
  fun _ _ =>
    .parsed "r" (some [⟨some "s1", some "let:a", none⟩, ⟨some "s2", some "use:a", none⟩])

/-- A concrete edit request: two confirmed steps, edit at index 2. -/
def wReq : UpdateRequest :=
  ⟨[⟨1, "pc", "k", "o", "normal"⟩, ⟨2, "pc2", "k2", "o2", "normal"⟩], 2, "nc", "prob"⟩

/-- C1: for every generation request the retry loop makes at most
`max_retries` generation attempts, and if no attempt succeeds it returns
exactly one synthesized terminal step with status `error`, index
`start_index`, the failure content, and the sentinel code and output values,
with no step of any failed attempt. -/
theorem retry_bound_and_terminal_error {σ : Type} (E : ExecModel σ)
    (chat : Nat → List Msg → GenOutcome) (msgs : List Msg) (si : Int) (mr : Nat)
    (hfail : ∀ (n : Nat) (h : List Msg), attemptSucceedsB E (chat n h) = false) :
    (genHistories E chat msgs si mr).length ≤ mr ∧
      generate_proof_chain E chat msgs si mr = [errorStep si] :=
  ⟨genGo_trace_len E chat si mr 0 msgs, genGo_all_fail E chat si hfail mr 0 msgs⟩

/-- Witness for C1 at a concrete always-failing generator. -/
theorem retry_bound_and_terminal_error_witness :
    (genHistories miniModel chatAllFail [wMsg] 5 2).length ≤ 2 ∧
      generate_proof_chain miniModel chatAllFail [wMsg] 5 2 = [errorStep 5] :=
  retry_bound_and_terminal_error miniModel chatAllFail [wMsg] 5 2 (fun _ _ => rfl)

/-- C2: for every chain returned by the loop, index values are contiguous
from the requested start index; for `Solve` they start at 1, and for
`UpdateStep` with an in-range edit index the generated suffix starts at
`edit_index`. -/
theorem chain_indices_contiguous {σ σ2 σ3 : Type} (E : ExecModel σ)
    (chat : Nat → List Msg → GenOutcome) (msgs : List Msg) (si : Int) (mr : Nat)
    (i : Nat) (s : ProofStep)
    (hi : (generate_proof_chain E chat msgs si mr).get? i = some s)
    (E2 : ExecModel σ2) (chat2 : Nat → List Msg → GenOutcome) (prob : String)
    (l : Nat) (u : ProofStep) (hu : (solve_endpoint E2 chat2 prob).get? l = some u)
    (E3 : ExecModel σ3) (chat3 : Nat → List Msg → GenOutcome) (req : UpdateRequest)
    (j : Nat) (t : ProofStep)
    (h1 : 1 ≤ req.edit_index) (h2 : req.edit_index ≤ (req.current_steps.length : Int) + 1)
    (ht : ((update_endpoint E3 chat3 req).drop (req.edit_index - 1).toNat).get? j = some t) :
    s.index = si + i ∧ u.index = 1 + l ∧ t.index = req.edit_index + j := by
  refine ⟨generate_get_index E chat msgs si mr i s hi,
    generate_get_index E2 chat2 _ 1 3 l u hu, ?_⟩
  have hslice : pysliceTo req.current_steps (req.edit_index - 1)
      = req.current_steps.take (req.edit_index - 1).toNat := by
    unfold pysliceTo
    rw [if_neg (by omega)]
  have hlen : (pysliceTo req.current_steps (req.edit_index - 1)).length
      = (req.edit_index - 1).toNat := by
    rw [hslice, List.length_take]
    omega
  have hupd : update_endpoint E3 chat3 req
      = pysliceTo req.current_steps (req.edit_index - 1) ++
        generate_proof_chain E3 chat3
          [⟨"system", SYSTEM_PROMPT⟩, ⟨"user", UPDATE_PROMPT req⟩]
          (((pysliceTo req.current_steps (req.edit_index - 1)).length : Int) + 1) 3 := rfl
  rw [hupd, ← hlen, ldrop_append_self] at ht
  have h3 := generate_get_index E3 chat3 _ _ 3 j t ht
  have h4 : ((pysliceTo req.current_steps (req.edit_index - 1)).length : Int)
      = req.edit_index - 1 := by
    rw [hlen]
    omega
  rw [h3, h4]
  omega

/-- Witness for C2: a successful fresh chain, a successful `Solve`, and a
successful in-range `UpdateStep` with concrete data. -/
theorem chain_indices_contiguous_witness :
    (⟨5, "s2", "use:a", "ok", "normal"⟩ : ProofStep).index = 4 + (1 : Nat) ∧
      (⟨1, "s1", "let:a", "\\text\x7bNo Output\x7d", "normal"⟩ : ProofStep).index
        = 1 + (0 : Nat) ∧
      (⟨2, "s1", "let:a", "\\text\x7bNo Output\x7d", "normal"⟩ : ProofStep).index
        = wReq.edit_index + (0 : Nat) :=
  chain_indices_contiguous miniModel chatOK [wMsg] 4 3 1 _ (by decide)
    miniModel chatOK "pr" 0 _ (by decide)
    miniModel chatOK wReq 0 _ (by decide) (by decide) (by decide)

/-- C3: the executor runs fragments in list order, stops at the first raised
error (steps after the failing one are irrelevant), reports exactly the steps
verified so far in order together with the description of the triggering error,
and the retry controller never returns a partial batch: its result is the
terminal error step or the reindexing of a fully verified batch. -/
theorem executor_halts_at_first_error {σ : Type} (E : ExecModel σ) (steps : List StepDict)
    (vs : List ProofStep) (m : String) (rest : List StepDict)
    (chat : Nat → List Msg → GenOutcome) (msgs : List Msg) (si : Int) (mr : Nat)
    (hf : execute_steps E steps = .failed vs m) :
    execute_steps E (steps ++ rest) = .failed vs m ∧
      (steps.take vs.length).map StepDict.code = vs.map (fun v => some v.code) ∧
      (steps.take vs.length).map StepDict.content = vs.map (fun v => some v.content) ∧
      (∃ d, steps.get? vs.length = some d ∧ ∃ c, d.code = some c ∧
        ∃ se, runSessGo E (steps.take vs.length) E.init = some se ∧
          (E.run c se = .raise m ∨
            ((∃ se2 o, E.run c se = .ok se2 o) ∧ d.content = none ∧
              m = "\x27content\x27"))) ∧
      (generate_proof_chain E chat msgs si mr = [errorStep si] ∨
        ∃ steps2 vs2, execute_steps E steps2 = .success vs2 ∧
          generate_proof_chain E chat msgs si mr = reindexFrom si vs2) := by
  obtain ⟨⟨hcode, hcontent⟩, hrest⟩ := execGo_failed_spec E steps E.init vs m hf
  exact ⟨execGo_append_failed E steps E.init vs m rest hf, hcode, hcontent, hrest,
    genGo_result_cases E chat si mr 0 msgs⟩

/-- Witness for C3 at a concrete batch failing on its second fragment. -/
theorem executor_halts_at_first_error_witness :
    execute_steps miniModel ([bindStep "a", useStep "z"] ++ [bindStep "q"])
        = .failed [bindVStep "a"] "name z is not defined" ∧
      ([bindStep "a", useStep "z"].take [bindVStep "a"].length).map StepDict.code
        = [bindVStep "a"].map (fun v => some v.code) ∧
      ([bindStep "a", useStep "z"].take [bindVStep "a"].length).map StepDict.content
        = [bindVStep "a"].map (fun v => some v.content) ∧
      (∃ d, [bindStep "a", useStep "z"].get? [bindVStep "a"].length = some d ∧
        ∃ c, d.code = some c ∧
        ∃ se, runSessGo miniModel
            ([bindStep "a", useStep "z"].take [bindVStep "a"].length) miniModel.init
            = some se ∧
          (miniModel.run c se = .raise "name z is not defined" ∨
            ((∃ se2 o, miniModel.run c se = .ok se2 o) ∧ d.content = none ∧
              "name z is not defined" = "\x27content\x27"))) ∧
      (generate_proof_chain miniModel chatAllFail [wMsg] 1 3 = [errorStep 1] ∨
        ∃ steps2 vs2, execute_steps miniModel steps2 = .success vs2 ∧
          generate_proof_chain miniModel chatAllFail [wMsg] 1 3 = reindexFrom 1 vs2) :=
  executor_halts_at_first_error miniModel [bindStep "a", useStep "z"]
    [bindVStep "a"] "name z is not defined" [bindStep "q"]
    chatAllFail [wMsg] 1 3 (by decide)

/-- A generator whose first attempt fails in execution (unbound name) and
whose later attempts verify. -/
def chatFailThenOk : Nat → List Msg → GenOutcome :=
  fun n _ =>
    if n = 0 then .parsed "r0" (some [⟨some "c", some "use:q", none⟩])
    else .parsed "r1" (some [⟨some "s1", some "let:a", none⟩])

/-- A generator whose first attempt is a service error and whose later
attempts verify. -/
def chatExcThenOk : Nat → List Msg → GenOutcome :=
  fun n _ =>
    if n = 0 then .exc
    else .parsed "r1" (some [⟨some "s1", some "let:a", none⟩])

/-- C4: when an attempt fails during execution, exactly two turns are
appended before the next attempt — the failed assistant response verbatim as
an assistant turn, then a system-role diagnostic with the captured error
description — and the next generation request is issued with this extended
history. -/
theorem exec_failure_appends_two_turns {σ : Type} (E : ExecModel σ)
    (chat : Nat → List Msg → GenOutcome) (msgs : List Msg) (si : Int) (mr : Nat)
    (n : Nat) (h : List Msg) (raw : String) (steps : List StepDict)
    (vs : List ProofStep) (m : String)
    (hn : (genHistories E chat msgs si mr).get? n = some h)
    (hchat : chat n h = .parsed raw (some steps))
    (hfail : execute_steps E steps = .failed vs m)
    (hlt : n + 1 < mr) :
    (genHistories E chat msgs si mr).get? (n + 1)
      = some (h ++ [⟨"assistant", raw⟩, ⟨"system", "Code Error: " ++ m⟩]) := by
  refine genGo_trace_adj E chat si mr 0 msgs n h _ hn ?_ hlt
  rw [Nat.zero_add, hchat]
  simp [contNext, hfail]

/-- Witness for C4: first attempt raises a NameError, so the second request
carries the assistant turn and the diagnostic. -/
theorem exec_failure_appends_two_turns_witness :
    (genHistories miniModel chatFailThenOk [wMsg] 1 3).get? 1
      = some ([wMsg] ++ [⟨"assistant", "r0"⟩,
          ⟨"system", "Code Error: " ++ "name q is not defined"⟩]) :=
  exec_failure_appends_two_turns miniModel chatFailThenOk [wMsg] 1 3 0 [wMsg]
    "r0" [⟨some "c", some "use:q", none⟩] [] "name q is not defined"
    (by decide) rfl (by decide) (by decide)

/-- C5: an attempt failing at the requesting stage (service error or
undecodable response) or at the parsing stage (missing `steps` field) is
abandoned silently — the next generation request is issued with the
conversation history unchanged. -/
theorem silent_failure_preserves_history {σ : Type} (E : ExecModel σ)
    (chat : Nat → List Msg → GenOutcome) (msgs : List Msg) (si : Int) (mr : Nat)
    (n : Nat) (h : List Msg) (raw : String)
    (hn : (genHistories E chat msgs si mr).get? n = some h)
    (hout : chat n h = .exc ∨ chat n h = .parsed raw none)
    (hlt : n + 1 < mr) :
    (genHistories E chat msgs si mr).get? (n + 1) = some h := by
  refine genGo_trace_adj E chat si mr 0 msgs n h h hn ?_ hlt
  rw [Nat.zero_add]
  rcases hout with hc | hc <;> rw [hc] <;> simp [contNext]

/-- Witness for C5: first attempt is a service error; the second request sees
the unchanged initial history. -/
theorem silent_failure_preserves_history_witness :
    (genHistories miniModel chatExcThenOk [wMsg] 1 3).get? 1 = some [wMsg] :=
  silent_failure_preserves_history miniModel chatExcThenOk [wMsg] 1 3 0 [wMsg] ""
    (by decide) (Or.inl rfl) (by decide)

/-- C6: in every fully verified batch the output of each step is the captured
stdout of its own fragment stripped of surrounding whitespace, with the
sentinel substituted when blank, hence non-empty; and every step of every
chain the loop returns has non-empty output. -/
theorem outputs_normalized_nonempty {σ σ2 : Type} (E : ExecModel σ)
    (steps : List StepDict) (vs : List ProofStep) (i : Nat) (s : ProofStep)
    (hsucc : execute_steps E steps = .success vs)
    (hi : vs.get? i = some s)
    (E2 : ExecModel σ2) (chat2 : Nat → List Msg → GenOutcome) (msgs2 : List Msg)
    (si2 : Int) (mr2 : Nat) (j : Nat) (t : ProofStep)
    (ht : (generate_proof_chain E2 chat2 msgs2 si2 mr2).get? j = some t) :
    (s.output ≠ "" ∧
      ∃ raw se se2, E.run s.code se = .ok se2 raw ∧ s.output = normOutput raw) ∧
      t.output ≠ "" :=
  ⟨execGo_success_outputs E steps E.init vs hsucc i s hi,
    generate_output_ne_empty E2 chat2 msgs2 si2 mr2 j t ht⟩

/-- Witness for C6: a verified binding step carries the sentinel output. -/
theorem outputs_normalized_nonempty_witness :
    ((bindVStep "a").output ≠ "" ∧
      ∃ raw se se2, miniModel.run (bindVStep "a").code se = .ok se2 raw ∧
        (bindVStep "a").output = normOutput raw) ∧
      (⟨1, "s1", "let:a", "\\text\x7bNo Output\x7d", "normal"⟩ : ProofStep).output ≠ "" :=
  outputs_normalized_nonempty miniModel [bindStep "a"] [bindVStep "a"] 0 (bindVStep "a")
    (by decide) rfl
    miniModel chatOK [wMsg] 1 3 0 _ (by decide)

/-- C7: `UpdateStep` returns every step strictly before the edit index
unchanged in all fields and in its original position, and does so whatever
the execution collaborator and generator are — the prefix is never
re-executed. -/
theorem edit_prefix_unchanged {σ σ2 : Type} (E : ExecModel σ)
    (chat : Nat → List Msg → GenOutcome) (E2 : ExecModel σ2)
    (chat2 : Nat → List Msg → GenOutcome) (req : UpdateRequest)
    (k : Nat) (s : ProofStep)
    (h1 : 1 ≤ req.edit_index)
    (hk : (k : Int) < req.edit_index - 1)
    (hs : req.current_steps.get? k = some s) :
    (update_endpoint E chat req).get? k = some s ∧
      (update_endpoint E2 chat2 req).get? k = some s := by
  have hklen : k < req.current_steps.length := lget_some_lt _ k s hs
  have hkt : k < (req.edit_index - 1).toNat := by omega
  have hslice : pysliceTo req.current_steps (req.edit_index - 1)
      = req.current_steps.take (req.edit_index - 1).toNat := by
    unfold pysliceTo
    rw [if_neg (by omega)]
  have key : ∀ {σ3 : Type} (E3 : ExecModel σ3) (chat3 : Nat → List Msg → GenOutcome),
      (update_endpoint E3 chat3 req).get? k = some s := by
    intro σ3 E3 chat3
    have hlen2 : k < (pysliceTo req.current_steps (req.edit_index - 1)).length := by
      rw [hslice, List.length_take]
      omega
    show (pysliceTo req.current_steps (req.edit_index - 1) ++ _).get? k = some s
    rw [lget_append_lt _ _ k hlen2, hslice, lget_take_lt _ _ _ hkt]
    exact hs
  exact ⟨key E chat, key E2 chat2⟩

/-- Witness for C7 at the concrete edit request, under two different
collaborator pairs. -/
theorem edit_prefix_unchanged_witness :
    (update_endpoint miniModel chatOK wReq).get? 0
        = some ⟨1, "pc", "k", "o", "normal"⟩ ∧
      (update_endpoint miniModel chatAllFail wReq).get? 0
        = some ⟨1, "pc", "k", "o", "normal"⟩ :=
  edit_prefix_unchanged miniModel chatOK miniModel chatAllFail wReq 0
    ⟨1, "pc", "k", "o", "normal"⟩ (by decide) (by decide) rfl

/-- Normalizing the stdout `ok` leaves it unchanged. -/
theorem normOutput_ok : normOutput "ok" = "ok" := by decide

/-- C8: within one verification batch all fragments run against a single
shared session created fresh from the seed of the collaborator: a fragment
referencing a name bound by an earlier fragment of the same batch (or by the
seed) succeeds, while a fragment referencing a name never bound in that batch
raises and halts the batch at that step with only the earlier steps
verified. -/
theorem batch_session_binding (names : List String) (x : String) :
    (x ∈ "sympy" :: "sp" :: names →
      execute_steps miniModel (names.map bindStep ++ [useStep x])
        = .success (names.map bindVStep ++ [useVStep x])) ∧
    (x ∉ "sympy" :: "sp" :: names →
      execute_steps miniModel (names.map bindStep ++ [useStep x])
        = .failed (names.map bindVStep) ("name " ++ x ++ " is not defined")) := by
  have hmem : (x ∈ names.reverse ++ miniModel.init) ↔ x ∈ "sympy" :: "sp" :: names := by
    simp [miniModel]
    tauto
  have hgo : execute_steps miniModel (names.map bindStep ++ [useStep x])
      = prependResult (names.map bindVStep)
          (execGo miniModel [useStep x] (names.reverse ++ miniModel.init)) :=
    execGo_bind_prefix names miniModel.init [useStep x]
  constructor
  · intro hx
    have hx2 : x ∈ names.reverse ++ miniModel.init := hmem.mpr hx
    have hrun : miniModel.run ("use:" ++ x) (names.reverse ++ miniModel.init)
        = .ok (names.reverse ++ miniModel.init) "ok" := by
      rw [show miniModel.run = miniRun from rfl, miniRun_use, if_pos hx2]
    have huse : execGo miniModel [useStep x] (names.reverse ++ miniModel.init)
        = .success [useVStep x] := by
      simp [execGo, useStep, hrun, useVStep, normOutput_ok]
    rw [hgo, huse]
    rfl
  · intro hx
    have hx2 : x ∉ names.reverse ++ miniModel.init := fun hmm => hx (hmem.mp hmm)
    have hrun : miniModel.run ("use:" ++ x) (names.reverse ++ miniModel.init)
        = .raise ("name " ++ x ++ " is not defined") := by
      rw [show miniModel.run = miniRun from rfl, miniRun_use, if_neg hx2]
    have huse : execGo miniModel [useStep x] (names.reverse ++ miniModel.init)
        = .failed [] ("name " ++ x ++ " is not defined") := by
      simp [execGo, useStep, hrun]
    rw [hgo, huse]
    simp [prependResult]

/-- Witness for C8: binding `a` then using `a` verifies; using unbound `b`
halts the batch with a NameError after the binding step. -/
theorem batch_session_binding_witness :
    execute_steps miniModel (["a"].map bindStep ++ [useStep "a"])
        = .success (["a"].map bindVStep ++ [useVStep "a"]) ∧
      execute_steps miniModel (["a"].map bindStep ++ [useStep "b"])
        = .failed (["a"].map bindVStep) ("name " ++ "b" ++ " is not defined") :=
  ⟨(batch_session_binding ["a"] "a").1 (by decide),
    (batch_session_binding ["a"] "b").2 (by decide)⟩

/-- A generator whose first plan has a step with `code` but no `content`. -/
def chatNoContent : Nat → List Msg → GenOutcome :=
  fun n _ =>
    if n = 0 then .parsed "r0" (some [⟨none, some "let:x", none⟩]) else .exc

/-- A generator whose first plan has a step with `content` but no `code`. -/
def chatNoCode : Nat → List Msg → GenOutcome :=
  fun n _ =>
    if n = 0 then .parsed "rA" (some [⟨some "c", none, none⟩]) else .exc

/-- Counterexample to C9 as stated: a step descriptor lacking `content`
(whose code runs fine) is not abandoned silently — the history of the next request
is extended by the assistant turn and a diagnostic, so the conversation
history is modified. -/
theorem missing_content_appends_diagnostic_cex :
    (genHistories miniModel chatNoContent [wMsg] 1 3).get? 0 = some [wMsg] ∧
      (genHistories miniModel chatNoContent [wMsg] 1 3).get? 1
        = some ([wMsg] ++ [⟨"assistant", "r0"⟩,
            ⟨"system", "Code Error: \x27content\x27"⟩]) ∧
      ¬ (genHistories miniModel chatNoContent [wMsg] 1 3).get? 1 = some [wMsg] := by
  refine ⟨by decide, by decide, by decide⟩

/-- C9 (amended): a step descriptor lacking `code` makes `execute_steps`
raise, so the attempt is abandoned silently with the history unchanged; but a
step descriptor lacking `content` whose fragment executes without raising is
reported as an execution failure, so the assistant response and a diagnostic
carrying the KeyError text are appended before the next attempt. -/
theorem missing_field_handling {σ σ2 : Type} (E : ExecModel σ)
    (chat : Nat → List Msg → GenOutcome) (msgs : List Msg) (si : Int) (mr : Nat)
    (n : Nat) (h : List Msg) (raw : String) (d : StepDict) (rest : List StepDict)
    (hn : (genHistories E chat msgs si mr).get? n = some h)
    (hchat : chat n h = .parsed raw (some (d :: rest)))
    (hcode : d.code = none)
    (hlt : n + 1 < mr)
    (E2 : ExecModel σ2) (chat2 : Nat → List Msg → GenOutcome) (msgs2 : List Msg)
    (si2 : Int) (mr2 : Nat) (n2 : Nat) (h2 : List Msg) (raw2 : String) (d2 : StepDict)
    (c2 : String) (se : σ2) (o : String)
    (hn2 : (genHistories E2 chat2 msgs2 si2 mr2).get? n2 = some h2)
    (hchat2 : chat2 n2 h2 = .parsed raw2 (some [d2]))
    (hc2 : d2.code = some c2)
    (hct2 : d2.content = none)
    (hrun : E2.run c2 E2.init = .ok se o)
    (hlt2 : n2 + 1 < mr2) :
    (genHistories E chat msgs si mr).get? (n + 1) = some h ∧
      (genHistories E2 chat2 msgs2 si2 mr2).get? (n2 + 1)
        = some (h2 ++ [⟨"assistant", raw2⟩,
            ⟨"system", "Code Error: \x27content\x27"⟩]) := by
  constructor
  · have hexec : execute_steps E (d :: rest) = .raised := by
      simp [execute_steps, execGo, hcode]
    refine genGo_trace_adj E chat si mr 0 msgs n h h hn ?_ hlt
    rw [Nat.zero_add, hchat]
    simp [contNext, hexec]
  · have hexec : execute_steps E2 [d2] = .failed [] "\x27content\x27" := by
      simp [execute_steps, execGo, hc2, hrun, hct2]
    refine genGo_trace_adj E2 chat2 si2 mr2 0 msgs2 n2 h2 _ hn2 ?_ hlt2
    rw [Nat.zero_add, hchat2]
    simp [contNext, hexec]

/-- Witness for C9 (amended) at the two concrete generators. -/
theorem missing_field_handling_witness :
    (genHistories miniModel chatNoCode [wMsg] 1 3).get? 1 = some [wMsg] ∧
      (genHistories miniModel chatNoContent [wMsg] 1 3).get? 1
        = some ([wMsg] ++ [⟨"assistant", "r0"⟩,
            ⟨"system", "Code Error: \x27content\x27"⟩]) :=
  missing_field_handling miniModel chatNoCode [wMsg] 1 3 0 [wMsg] "rA"
    ⟨some "c", none, none⟩ [] (by decide) rfl rfl (by decide)
    miniModel chatNoContent [wMsg] 1 3 0 [wMsg] "r0"
    ⟨none, some "let:x", none⟩ "let:x" ["x", "sympy", "sp"] ""
    (by decide) rfl rfl rfl (by decide) (by decide)

/-- An edit request with an empty chain and `edit_index = 0`. -/
def emptyReq : UpdateRequest := ⟨[], 0, "n", "p"⟩

/-- An edit request with `edit_index = 0` on a non-empty chain. -/
def zeroReq : UpdateRequest := ⟨[⟨1, "pc", "k", "o", "normal"⟩], 0, "n", "p"⟩

/-- An edit request whose `edit_index` exceeds the chain length plus one. -/
def bigReq : UpdateRequest := ⟨[⟨1, "pc", "k", "o", "normal"⟩], 5, "n", "p"⟩

/-- Counterexample to C10 as stated: for `edit_index = 0` on an empty chain
the generated suffix is numbered from 1, not from `len(current_steps) = 0`,
so the claimed "numbering restarts at len(current_steps)" fails there. -/
theorem update_zero_numbering_cex :
    emptyReq.edit_index = 0 ∧
      emptyReq.current_steps.length = 0 ∧
      (update_endpoint miniModel chatAllFail emptyReq).map ProofStep.index = [1] ∧
      ¬ (update_endpoint miniModel chatAllFail emptyReq).map ProofStep.index = [0] := by
  refine ⟨rfl, rfl, by decide, by decide⟩

/-- C10 (amended): `update_endpoint` validates nothing — the preserved prefix
is always the Python slice `current_steps[:edit_index-1]` and the generated
suffix is always numbered from the length of that prefix plus one; hence for
`edit_index = 0` on a non-empty chain the prefix is every step but the last
and numbering restarts at `len(current_steps)`, and for
`edit_index > len(current_steps) + 1` the prefix is the whole chain and the
suffix starts at `len(current_steps) + 1` rather than at `edit_index`. -/
theorem update_slice_semantics {σ : Type} (E : ExecModel σ)
    (chat : Nat → List Msg → GenOutcome) (req : UpdateRequest)
    (req0 req1 : UpdateRequest) (j : Nat) (t : ProofStep)
    (h0 : req0.edit_index = 0) (hne : req0.current_steps ≠ [])
    (hgt : (req1.current_steps.length : Int) + 1 < req1.edit_index)
    (ht : ((update_endpoint E chat req).drop
        (pysliceTo req.current_steps (req.edit_index - 1)).length).get? j = some t) :
    update_endpoint E chat req
        = pysliceTo req.current_steps (req.edit_index - 1) ++
          generate_proof_chain E chat
            [⟨"system", SYSTEM_PROMPT⟩, ⟨"user", UPDATE_PROMPT req⟩]
            (((pysliceTo req.current_steps (req.edit_index - 1)).length : Int) + 1) 3 ∧
      pysliceTo req0.current_steps (req0.edit_index - 1) = req0.current_steps.dropLast ∧
      ((pysliceTo req0.current_steps (req0.edit_index - 1)).length : Int) + 1
        = (req0.current_steps.length : Int) ∧
      pysliceTo req1.current_steps (req1.edit_index - 1) = req1.current_steps ∧
      ((pysliceTo req1.current_steps (req1.edit_index - 1)).length : Int) + 1
        = (req1.current_steps.length : Int) + 1 ∧
      t.index = ((pysliceTo req.current_steps (req.edit_index - 1)).length : Int) + 1 + j := by
  have hpos : 0 < req0.current_steps.length := List.length_pos.mpr hne
  have hzero : pysliceTo req0.current_steps (req0.edit_index - 1)
      = req0.current_steps.dropLast := by
    rw [h0]
    unfold pysliceTo
    rw [if_pos (by omega)]
    rw [show ((req0.current_steps.length : Int) + (0 - 1)).toNat
        = req0.current_steps.length - 1 by omega]
    rw [← List.dropLast_eq_take]
  have hbig : pysliceTo req1.current_steps (req1.edit_index - 1)
      = req1.current_steps := by
    unfold pysliceTo
    rw [if_neg (by omega)]
    exact List.take_of_length_le (by omega)
  refine ⟨rfl, hzero, ?_, hbig, by rw [hbig], ?_⟩
  · rw [hzero, List.length_dropLast]
    omega
  · have hupd : update_endpoint E chat req
        = pysliceTo req.current_steps (req.edit_index - 1) ++
          generate_proof_chain E chat
            [⟨"system", SYSTEM_PROMPT⟩, ⟨"user", UPDATE_PROMPT req⟩]
            (((pysliceTo req.current_steps (req.edit_index - 1)).length : Int) + 1) 3 := rfl
    rw [hupd, ldrop_append_self] at ht
    exact generate_get_index E chat _ _ 3 j t ht

/-- Witness for C10 (amended) at concrete in-range, zero, and too-large edit
indices. -/
theorem update_slice_semantics_witness :
    update_endpoint miniModel chatOK wReq
        = pysliceTo wReq.current_steps (wReq.edit_index - 1) ++
          generate_proof_chain miniModel chatOK
            [⟨"system", SYSTEM_PROMPT⟩, ⟨"user", UPDATE_PROMPT wReq⟩]
            (((pysliceTo wReq.current_steps (wReq.edit_index - 1)).length : Int) + 1) 3 ∧
      pysliceTo zeroReq.current_steps (zeroReq.edit_index - 1)
        = zeroReq.current_steps.dropLast ∧
      ((pysliceTo zeroReq.current_steps (zeroReq.edit_index - 1)).length : Int) + 1
        = (zeroReq.current_steps.length : Int) ∧
      pysliceTo bigReq.current_steps (bigReq.edit_index - 1) = bigReq.current_steps ∧
      ((pysliceTo bigReq.current_steps (bigReq.edit_index - 1)).length : Int) + 1
        = (bigReq.current_steps.length : Int) + 1 ∧
      (⟨2, "s1", "let:a", "\\text\x7bNo Output\x7d", "normal"⟩ : ProofStep).index
        = ((pysliceTo wReq.current_steps (wReq.edit_index - 1)).length : Int) + 1
          + (0 : Nat) :=
  update_slice_semantics miniModel chatOK wReq zeroReq bigReq 0
    ⟨2, "s1", "let:a", "\\text\x7bNo Output\x7d", "normal"⟩
    rfl (by decide) (by decide) (by decide)

end LLMath
